import Mathlib

set_option linter.unusedVariables false

/-! Shallow embedding of `src/fat/mkfs.c`, the one-shot filesystem-image
    builder.  Blocks are 512 bytes; block 0 is the super block, blocks
    `1..fatBlocks` hold the FAT, the remaining blocks hold the root
    directory and file data.  Machine `uint32_t` values are modelled as
    `Nat` (exact for `nBlocks < 2^31`, the range of the C `int` argument);
    32-bit stores into the byte region are performed byte-by-byte (little
    endian), hence a stored word is recovered mod `2^32`.  `read(2)` on a
    regular file is modelled as returning `min count remaining`. -/

/-- Pointwise update of a `Nat`-indexed store. -/
def upd (f : Nat → Nat) (i v : Nat) : Nat → Nat :=
  fun j => if j = i then v else f j

/-- The `Super` block fields of `mkfs.c` together with the two ambient views
    of the mapped image: `fat` (the `uint32_t` FAT array starting at block 1)
    and `mem` (the raw byte view `blocks`, holding the data-block region).
    A fresh image produced by `ftruncate` on a new file is all zeroes. -/
structure FS where
  magic : List Nat
  nBlocks : Nat
  avail : Nat
  root : Nat
  fat : Nat → Nat
  mem : Nat → Nat

/-- `toPtr` of `mkfs.c`: address of byte `offset` inside block `idx`. -/
def toPtr (idx offset : Nat) : Nat :=
  idx * 512 + offset

/-- `getBlock` of `mkfs.c`: pop the head of the free chain.  `exit(-1)`
    on "disk is full" (`avail == 0`) is modelled as `none`. -/
def getBlock (s : FS) : Option (Nat × FS) :=
  let idx := s.avail
  if idx = 0 then
    none
  else
    some (idx, { s with avail := s.fat idx, fat := upd s.fat idx 0 })

/-- Store a list of bytes at consecutive addresses (the effect of one
    `read`-into-the-mapped-region copy): inside `[a, a + l.length)` the new
    bytes are visible, elsewhere the old contents. -/
def writeBytes (m : Nat → Nat) (a : Nat) (l : List Nat) : Nat → Nat :=
  fun x => if a ≤ x ∧ x < a + l.length then l.getD (x - a) 0 else m x

/-- Store a `uint32_t` little-endian at byte address `a`. -/
def writeWord (m : Nat → Nat) (a w : Nat) : Nat → Nat :=
  upd (upd (upd (upd m a (w % 256)) (a + 1) (w / 256 % 256))
    (a + 2) (w / 65536 % 256)) (a + 3) (w / 16777216 % 256)

/-- Read back a `uint32_t` little-endian from byte address `a`. -/
def readWord (m : Nat → Nat) (a : Nat) : Nat :=
  m a + 256 * m (a + 1) + 65536 * m (a + 2) + 16777216 * m (a + 3)

/-- The `while (1)` loop of `oneFile`.  `head` is the start block (whose
    header holds the length field), `content` the bytes not yet consumed
    from the source.  Returns the list of additionally allocated blocks, in
    allocation order, and the final state; `none` models `exit` on disk
    full.  A `read` of `leftInBlock` bytes returns `min leftInBlock
    content.length` bytes (regular-file semantics); the loop ends when a
    read returns 0, writing `totalSize` into the head block's length field.
    The structural `fuel` argument only bounds the iteration count; every
    caller supplies fuel exceeding the loop's measure
    `2 * content.length + 1`, so the fuel-exhaustion branch is unreachable. -/
def packLoop (head : Nat) :
    Nat → FS → Nat → Nat → Nat → Nat → List Nat → Option (List Nat × FS)
  | 0, _, _, _, _, _, _ => none
  | fuel + 1, s, currentBlockIndex, blockOffset, leftInBlock, totalSize, content =>
    if leftInBlock = 0 then
      match getBlock s with
      | none => none
      | some (b, s1) =>
        match packLoop head fuel { s1 with fat := upd s1.fat currentBlockIndex b } b 0 512
            totalSize content with
        | none => none
        | some (bs, s') => some (b :: bs, s')
    else
      let n := min leftInBlock content.length
      if n = 0 then
        some ([], { s with mem := writeWord s.mem (toPtr head 4) totalSize })
      else
        packLoop head fuel
          { s with mem := writeBytes s.mem (toPtr currentBlockIndex blockOffset) (content.take n) }
          currentBlockIndex (blockOffset + n) (leftInBlock - n) (totalSize + n)
          (content.drop n)

/-- `oneFile` of `mkfs.c`: allocate the start block, write the tag-1 header
    word, then stream the file content.  Returns the start block index, the
    list of additionally allocated blocks, and the final state.  The fuel
    `2 * content.length + 2` strictly exceeds the loop measure, so the loop
    always ends through one of its own exits. -/
def oneFile (content : List Nat) (s : FS) : Option (Nat × List Nat × FS) :=
  match getBlock s with
  | none => none
  | some (startBlockIndex, s1) =>
    match packLoop startBlockIndex (2 * content.length + 2)
        { s1 with mem := writeWord s1.mem (toPtr startBlockIndex 0) 1 }
        startBlockIndex 8 (512 - 8) 0 content with
    | none => none
    | some (bs, s') => some (startBlockIndex, bs, s')

/-- Number of blocks occupied by the FAT: `(nBlocks * sizeof(uint32_t) + 511) / 512`. -/
def fatBlocksOf (nBlocks : Nat) : Nat :=
  (nBlocks * 4 + 511) / 512

/-- The FAT-initialisation loop of `main`:
    `for (i = avail; i > lastAvail; i--) fat[i] = i - 1;`
    (structural recursion on `i`; the loop stops at `i <= lastAvail`). -/
def fatInitLoop (lastAvail : Nat) : Nat → (Nat → Nat) → (Nat → Nat)
  | 0, fat => fat
  | i + 1, fat =>
    if lastAvail < i + 1 then fatInitLoop lastAvail i (upd fat (i + 1) i) else fat

/-- Closed form of the initial FAT contents (on the all-zero fresh image):
    `fat[i] = i - 1` for `lastAvail < i <= nBlocks - 1`, `0` elsewhere. -/
def initFatF (nBlocks i : Nat) : Nat :=
  if 1 + fatBlocksOf nBlocks < i ∧ i < nBlocks then i - 1 else 0

/-- State of the image right after `main` wrote the super block and ran the
    FAT-initialisation loop (spec: "after free-list initialization"). -/
def initFS (nBlocks : Nat) : FS :=
  { magic := [70, 52, 51, 57]
    nBlocks := nBlocks
    avail := nBlocks - 1
    root := 0
    fat := fatInitLoop (1 + fatBlocksOf nBlocks) (nBlocks - 1) (fun _ => 0)
    mem := fun _ => 0 }

/-- Byte encoding of a (ASCII) file name, as the bytes `strncpy` reads. -/
def strBytes (s : String) : List Nat :=
  s.data.map Char.toNat

/-- `basename(3)` (main case): the component after the final `/`. -/
def basenameStr (s : String) : String :=
  String.mk (s.data.foldl (fun acc c => if c = '/' then [] else acc ++ [c]) [])

/-- The 12 bytes `strncpy(dest, base, 12)` leaves in a directory entry's
    name field: the name truncated to 12 bytes, NUL-padded if shorter. -/
def nameField (src : List Nat) : List Nat :=
  src.take 12 ++ List.replicate (12 - src.length) 0

/-- The per-file loop of `main`: pack each file with `oneFile`, then write
    its 16-byte directory entry (12-byte name via `strncpy`, 4-byte start
    block) at offset `8 + 16*i` of the root block.  Besides the final state
    it returns the list of start blocks (the values `oneFile` returned) and
    the list of all blocks allocated, in allocation order. -/
def filesLoop (root i : Nat) (s : FS) :
    List (String × List Nat) → Option (FS × List Nat × List Nat)
  | [] => some (s, [], [])
  | (nm, content) :: rest =>
    match oneFile content s with
    | none => none
    | some (x, bs, s1) =>
      match filesLoop root (i + 1)
          { s1 with
            mem := writeWord
                (writeBytes s1.mem (toPtr root (8 + 16 * i))
                  (nameField (strBytes (basenameStr nm))))
                (toPtr root (8 + 16 * i) + 12) x } rest with
      | none => none
      | some (s', hds, as) => some (s', x :: hds, (x :: bs) ++ as)

/-- `main` of `mkfs.c` after argument parsing and mapping: super block and
    FAT initialisation, root-directory block allocation and header, then the
    per-file loop.  Returns the final image state, the list of file start
    blocks, and the list of every allocated block in allocation order. -/
def mkfs (nBlocks : Nat) (files : List (String × List Nat)) :
    Option (FS × List Nat × List Nat) :=
  match getBlock (initFS nBlocks) with
  | none => none
  | some (rootIdx, s2) =>
    match filesLoop rootIdx 0
        { s2 with root := rootIdx
                  mem := writeWord (writeWord s2.mem (toPtr rootIdx 0) 2)
                    (toPtr rootIdx 4) (files.length * 16) } files with
    | none => none
    | some (s', hds, as) => some (s', hds, rootIdx :: as)

/-- Walk the FAT from block `b`: collect the visited blocks until a 0 link
    (or fuel runs out) and return the value the walk stopped on. -/
def chainWalk (f : Nat → Nat) : Nat → Nat → List Nat × Nat
  | 0, b => ([], b)
  | fuel + 1, b =>
    if b = 0 then ([], 0)
    else
      let r := chainWalk f fuel (f b)
      (b :: r.1, r.2)

/-- The list of blocks visited when walking the FAT from block `b`. -/
def chainList (f : Nat → Nat) (fuel b : Nat) : List Nat :=
  (chainWalk f fuel b).1

/-- Call `getBlock` repeatedly (up to `fuel` times), collecting the returned
    block indices until allocation fails. -/
def allocRec : Nat → FS → List Nat × FS
  | 0, s => ([], s)
  | fuel + 1, s =>
    match getBlock s with
    | none => ([], s)
    | some (i, s') =>
      let r := allocRec fuel s'
      (i :: r.1, r.2)

/-- `[lo + len - 1, ..., lo + 1, lo]`: a descending run of naturals. -/
def descRange (lo : Nat) : Nat → List Nat
  | 0 => []
  | n + 1 => (lo + n) :: descRange lo n

/-- `fat[u] = v` for each consecutive pair of the list, and the FAT entry of
    the last element is 0: the list is a complete chain in `f`. -/
def linked (f : Nat → Nat) : List Nat → Prop
  | [] => True
  | [u] => f u = 0
  | u :: v :: rest => f u = v ∧ linked f (v :: rest)

/-- Allocator/FAT invariant: every FAT entry at an index not yet handed out
    (i.e. `<= avail`) still has its initial value. -/
abbrev AllocInv (N : Nat) (s : FS) : Prop :=
  s.nBlocks = N ∧ s.avail < N ∧ ∀ i, i ≤ s.avail → s.fat i = initFatF N i

/-- `atoi(3)`: optional leading spaces/tabs, optional sign, longest digit
    prefix; no digits gives 0. -/
def atoiModel (s : String) : Int :=
  let ds := s.data.dropWhile (fun c => c = ' ' ∨ c = '\t')
  let digits (cs : List Char) : Int :=
    cs.takeWhile Char.isDigit |>.foldl (fun a c => a * 10 + (c.toNat - 48)) 0
  match ds with
  | '-' :: rest => - digits rest
  | '+' :: rest => digits rest
  | _ => digits ds

/-- Outcome of the argument-handling prologue of `main` (lines 204-213):
    `usageError` models the `argc < 4` diagnostic plus `exit(1)`;
    `proceeds` models control reaching the `open`/`ftruncate` of the image
    file (i.e. the backing store is touched) with the given parsed values. -/
inductive ArgCheck where
  | usageError : ArgCheck
  | proceeds : String → Int → List String → ArgCheck
deriving DecidableEq

/-- The argument-handling prologue of `main`: the only validation performed
    is `argc < 4`; `nBlocks = atoi(argv[2])` is never checked before the
    backing store is opened and truncated. -/
def mainArgs (argv : List String) : ArgCheck :=
  if argv.length < 4 then ArgCheck.usageError
  else ArgCheck.proceeds (argv.getD 1 "") (atoiModel (argv.getD 2 "")) (argv.drop 3)

/-- Image parser (reader side, used to state recovery claims): the recorded
    length of the file starting at block `hd`. -/
def parseFileLen (s : FS) (hd : Nat) : Nat :=
  readWord s.mem (toPtr hd 4)

/-- Image parser: the content bytes of the file starting at block `hd`,
    following the FAT chain (504 bytes in the head block, 512 thereafter). -/
def parseFileBytes (s : FS) (hd : Nat) : List Nat :=
  let L := parseFileLen s hd
  let chain := chainList s.fat s.nBlocks hd
  (List.range L).map fun j =>
    if j < 504 then s.mem (toPtr hd (8 + j))
    else s.mem (toPtr (chain.getD (1 + (j - 504) / 512) 0) ((j - 504) % 512))

/-- Image parser: the name stored in root-directory entry `i` (bytes up to
    the first NUL of the 12-byte name field). -/
def parseNameBytes (s : FS) (i : Nat) : List Nat :=
  ((List.range 12).map fun k => s.mem (toPtr s.root (8 + 16 * i) + k)).takeWhile
    fun b => b ≠ 0

/-- Image parser: the start-block field of root-directory entry `i`. -/
def entryStart (s : FS) (i : Nat) : Nat :=
  readWord s.mem (toPtr s.root (8 + 16 * i) + 12)

/-- Run of `mkfs` on the boundary scenario: `nBlocks = 16`, one input file
    of exactly 504 bytes. -/
def c1run : Option (FS × List Nat × List Nat) :=
  mkfs 16 [("f504", List.replicate 504 7)]

/-- Final image of the boundary scenario. -/
def c1img : FS :=
  match c1run with
  | some (s, _, _) => s
  | none => initFS 0

/-- Start block of the 504-byte file in the boundary scenario. -/
def c1head : Nat :=
  match c1run with
  | some (_, hds, _) => hds.getD 0 0
  | none => 0

/-- Fixed 600-byte content of the second file of the end-to-end scenario. -/
def c5content2 : List Nat :=
  (List.range 600).map fun j => (j + 3) % 256

/-- The end-to-end scenario inputs: `nBlocks = 16`, two files of sizes 10
    and 600 bytes with known fixed content. -/
def c5files : List (String × List Nat) :=
  [("fileA", [10, 20, 30, 40, 50, 60, 70, 80, 90, 100]), ("fileB", c5content2)]

/-- Run of `mkfs` on the end-to-end scenario. -/
def c5run : Option (FS × List Nat × List Nat) :=
  mkfs 16 c5files

/-- The image produced by the end-to-end scenario. -/
def c5img : FS :=
  match c5run with
  | some (s, _, _) => s
  | none => initFS 0

/-- Concrete run used by witnesses: `nBlocks = 8`, one 3-byte file whose
    path has a directory component. -/
def w4run : Option (FS × List Nat × List Nat) :=
  mkfs 8 [("w4/fileC", [1, 2, 3])]

/-- Final image of the witness run `w4run`. -/
def w4img : FS :=
  match w4run with
  | some (s, _, _) => s
  | none => initFS 0

/-- Start-block list of the witness run `w4run`. -/
def w4heads : List Nat :=
  match w4run with
  | some (_, h, _) => h
  | none => []

/-- Concrete `oneFile` call used by a witness: 3 bytes into a fresh
    8-block image. -/
def w6run : Option (Nat × List Nat × FS) :=
  oneFile [9, 8, 7] (initFS 8)

/-- Start block returned by the witness run `w6run`. -/
def w6x : Nat :=
  match w6run with
  | some (x, _, _) => x
  | none => 0

/-- Final state of the witness run `w6run`. -/
def w6img : FS :=
  match w6run with
  | some (_, _, s) => s
  | none => initFS 0

/-- Concrete run used by witnesses: `nBlocks = 8`, a 2-byte file and a
    600-byte (hence two-block) file. -/
def w8run : Option (FS × List Nat × List Nat) :=
  mkfs 8 [("w8a", [1, 2]), ("w8b", List.replicate 600 5)]

/-- Final image of the witness run `w8run`. -/
def w8img : FS :=
  match w8run with
  | some (s, _, _) => s
  | none => initFS 0

/-- Start-block list of the witness run `w8run`. -/
def w8heads : List Nat :=
  match w8run with
  | some (_, h, _) => h
  | none => []

/-- Allocation-order list of the witness run `w8run`. -/
def w8allocs : List Nat :=
  match w8run with
  | some (_, _, a) => a
  | none => []

/-- Concrete run used by witnesses: `nBlocks = 8`, one 600-byte file whose
    chain spans two blocks. -/
def w10run : Option (FS × List Nat × List Nat) :=
  mkfs 8 [("w10", List.replicate 600 9)]

/-- Final image of the witness run `w10run`. -/
def w10img : FS :=
  match w10run with
  | some (s, _, _) => s
  | none => initFS 0

/-- Start-block list of the witness run `w10run`. -/
def w10heads : List Nat :=
  match w10run with
  | some (_, h, _) => h
  | none => []

/-- Everything `packLoop` guarantees about a successful run, relative to the
    entry state `s`: the allocator invariant is preserved, the newly
    allocated blocks `bs` lie strictly between the final `avail` and the
    current block and are strictly decreasing, they now form a complete FAT
    chain after `cur`, the FAT above `cur` is untouched, the data region
    above the head block and the region at or below the final `avail` block
    are untouched (as are the head block's first 4 bytes), and the head
    block's length field holds the grand total of consumed bytes. -/
structure PackOut (N head cur tot : Nat) (content : List Nat) (s s' : FS)
    (bs : List Nat) : Prop where
  inv : AllocInv N s'
  root_eq : s'.root = s.root
  avail_le : s'.avail ≤ s.avail
  bs_mem : ∀ b ∈ bs, s'.avail < b ∧ b < cur
  chain : List.Chain' (· > ·) (cur :: bs)
  links : linked s'.fat (cur :: bs)
  fat_frame : ∀ i, cur < i → s'.fat i = s.fat i
  mem_frame : ∀ a, (head + 1) * 512 ≤ a ∨ a < (s'.avail + 1) * 512
      ∨ (head * 512 ≤ a ∧ a < head * 512 + 4) → s'.mem a = s.mem a
  header : readWord s'.mem (toPtr head 4) = (tot + content.length) % 4294967296

/-- Everything `oneFile` guarantees about a successful run: the start block
    `x` is the entry `avail`, the allocated chain `x :: bs` is strictly
    decreasing and completely linked in the FAT, the FAT above the entry
    `avail` is untouched, the data region above block `x` and at or below
    the final `avail` block is untouched, and the head block's header words
    hold tag 1 and the total content length. -/
structure OneOut (N : Nat) (content : List Nat) (s : FS) (x : Nat)
    (bs : List Nat) (s' : FS) : Prop where
  x_eq : x = s.avail
  x_pos : 0 < x
  inv : AllocInv N s'
  root_eq : s'.root = s.root
  avail_lt : s'.avail < x
  chain : List.Chain' (· > ·) (x :: bs)
  bs_mem : ∀ b ∈ bs, s'.avail < b ∧ b < x
  links : linked s'.fat (x :: bs)
  fat_frame : ∀ i, s.avail < i → s'.fat i = s.fat i
  mem_frame : ∀ a, (x + 1) * 512 ≤ a ∨ a < (s'.avail + 1) * 512 → s'.mem a = s.mem a
  tag : readWord s'.mem (toPtr x 0) = 1
  header : readWord s'.mem (toPtr x 4) = content.length % 4294967296

/-- Everything the per-file loop guarantees about a successful run starting
    at directory-entry index `i`: besides preservation facts (root field,
    FAT above the entry `avail`, root-block bytes below entry `i`), every
    processed file got a 16-byte directory entry holding its `strncpy`-name
    and its start block, every returned start block heads a strictly
    decreasing complete FAT chain of blocks above the final `avail`, and
    the allocation order appended with the final `avail` is strictly
    decreasing. -/
structure LoopOut (N root i : Nat) (files : List (String × List Nat)) (s s' : FS)
    (hds allocs : List Nat) : Prop where
  inv : AllocInv N s'
  root_eq : s'.root = s.root
  avail_le : s'.avail ≤ s.avail
  fat_frame : ∀ k, s.avail < k → s'.fat k = s.fat k
  mem_low : ∀ a, root * 512 ≤ a → a < root * 512 + 8 + 16 * i → s'.mem a = s.mem a
  hds_len : hds.length = files.length
  entries : ∀ j, j < files.length →
      (∀ k, k < 12 → s'.mem (toPtr root (8 + 16 * (i + j)) + k)
          = (nameField (strBytes (basenameStr (files.getD j ("", [])).1))).getD k 0)
      ∧ readWord s'.mem (toPtr root (8 + 16 * (i + j)) + 12) = hds.getD j 0
  chains : ∀ hd ∈ hds, ∃ tl, List.Chain' (· > ·) (hd :: tl) ∧ linked s'.fat (hd :: tl)
      ∧ ∀ b ∈ hd :: tl, 0 < b ∧ b < N ∧ s'.avail < b
  allocs_le : ∀ a ∈ allocs, a ≤ s.avail ∧ s'.avail < a
  allocs_chain : List.Chain' (· > ·) (allocs ++ [s'.avail])

/-- Everything `mkfs` guarantees about a successful run: the root directory
    is block `N - 1` (the first block allocated), its header words hold tag
    2 and `nFiles * 16`, entry `j` holds file `j`'s `strncpy`-name and start
    block, every start block heads a strictly decreasing complete FAT chain,
    and the allocation order starts at `N - 1` and, appended with the final
    `avail`, is strictly decreasing. -/
structure MkfsOut (N : Nat) (files : List (String × List Nat)) (s : FS)
    (hds allocs : List Nat) : Prop where
  two_le : 2 ≤ N
  root_eq : s.root = N - 1
  nb : s.nBlocks = N
  hds_len : hds.length = files.length
  root_tag : readWord s.mem (toPtr (N - 1) 0) = 2
  root_len : readWord s.mem (toPtr (N - 1) 4) = (files.length * 16) % 4294967296
  entries : ∀ j, j < files.length →
      (∀ k, k < 12 → s.mem (toPtr (N - 1) (8 + 16 * j) + k)
          = (nameField (strBytes (basenameStr (files.getD j ("", [])).1))).getD k 0)
      ∧ readWord s.mem (toPtr (N - 1) (8 + 16 * j) + 12) = hds.getD j 0
  chains : ∀ hd ∈ hds, ∃ tl, List.Chain' (· > ·) (hd :: tl) ∧ linked s.fat (hd :: tl)
      ∧ ∀ b ∈ hd :: tl, 0 < b ∧ b < N ∧ s.avail < b
  allocs_head : allocs.head? = some (N - 1)
  allocs_chain : List.Chain' (· > ·) (allocs ++ [s.avail])

/-! Basic store lemmas. -/

theorem upd_self (f : Nat → Nat) (i v : Nat) : upd f i v i = v := by
  simp [upd]

theorem upd_ne (f : Nat → Nat) (i v j : Nat) (h : j ≠ i) : upd f i v j = f j := by
  simp [upd, h]

theorem writeBytes_frame (l : List Nat) :
    ∀ (m : Nat → Nat) (a x : Nat), x < a ∨ a + l.length ≤ x → writeBytes m a l x = m x := by
  intro m a x h
  simp only [writeBytes]
  rw [if_neg (by omega)]

theorem writeBytes_getD (l : List Nat) :
    ∀ (m : Nat → Nat) (a k : Nat), k < l.length → writeBytes m a l (a + k) = l.getD k 0 := by
  intro m a k h
  simp only [writeBytes]
  rw [if_pos (by omega)]
  have he : a + k - a = k := by omega
  rw [he]

theorem writeWord_frame (m : Nat → Nat) (a w x : Nat) (h : x < a ∨ a + 4 ≤ x) :
    writeWord m a w x = m x := by
  simp only [writeWord, upd]
  split_ifs <;> first | rfl | omega

theorem readWord_writeWord (m : Nat → Nat) (a w : Nat) :
    readWord (writeWord m a w) a = w % 4294967296 := by
  simp only [readWord, writeWord, upd]
  split_ifs <;> omega

theorem readWord_writeWord_frame (m : Nat → Nat) (a w x : Nat)
    (h : x + 4 ≤ a ∨ a + 4 ≤ x) : readWord (writeWord m a w) x = readWord m x := by
  simp only [readWord]
  rw [writeWord_frame _ _ _ _ (by omega), writeWord_frame _ _ _ _ (by omega),
    writeWord_frame _ _ _ _ (by omega), writeWord_frame _ _ _ _ (by omega)]

/-! The initial FAT contents. -/

theorem fatInitLoop_eq (L : Nat) :
    ∀ (j : Nat) (f : Nat → Nat) (x : Nat),
      fatInitLoop L j f x = if L < x ∧ x ≤ j then x - 1 else f x := by
  intro j
  induction j with
  | zero => intro f x; rw [fatInitLoop, if_neg (by omega)]
  | succ i ih =>
    intro f x
    simp only [fatInitLoop]
    by_cases hL : L < i + 1
    · rw [if_pos hL, ih]
      by_cases h1 : L < x ∧ x ≤ i
      · rw [if_pos h1, if_pos (by omega)]
      · rw [if_neg h1]
        simp only [upd]
        by_cases h2 : x = i + 1
        · rw [if_pos h2, if_pos (by omega)]
          omega
        · rw [if_neg h2, if_neg (by omega)]
    · rw [if_neg hL, if_neg (by omega)]

theorem initFS_fat (N x : Nat) : (initFS N).fat x = initFatF N x := by
  show fatInitLoop (1 + fatBlocksOf N) (N - 1) (fun _ => 0) x = initFatF N x
  rw [fatInitLoop_eq]
  unfold initFatF
  by_cases h : 1 + fatBlocksOf N < x ∧ x ≤ N - 1
  · rw [if_pos h, if_pos (by omega)]
  · rw [if_neg h, if_neg (by omega)]

theorem initFatF_lt (N a : Nat) (h : 0 < a) : initFatF N a < a := by
  unfold initFatF
  split <;> omega

theorem initFatF_lt_N (N a : Nat) (h : 0 < N) : initFatF N a < N := by
  unfold initFatF
  split <;> omega

/-! Chain-walk lemmas. -/

theorem chainWalk_zero (f : Nat → Nat) (fuel : Nat) : chainWalk f fuel 0 = ([], 0) := by
  cases fuel <;> rfl

theorem chainWalk_congr (f g : Nat → Nat) (h : ∀ x, f x = g x) :
    ∀ (fuel b : Nat), chainWalk f fuel b = chainWalk g fuel b := by
  intro fuel
  induction fuel with
  | zero => intro b; rfl
  | succ n ih =>
    intro b
    simp only [chainWalk]
    rw [h b, ih (g b)]

/-! Descending runs of naturals. -/

theorem descRange_length (lo : Nat) : ∀ n, (descRange lo n).length = n := by
  intro n
  induction n with
  | zero => rfl
  | succ m ih => simp only [descRange, List.length_cons, ih]

theorem mem_descRange (lo : Nat) : ∀ (n x : Nat), x ∈ descRange lo n ↔ lo ≤ x ∧ x < lo + n := by
  intro n
  induction n with
  | zero => intro x; simp only [descRange, List.not_mem_nil, false_iff]; omega
  | succ m ih =>
    intro x
    simp only [descRange, List.mem_cons, ih]
    omega

theorem descRange_nodup (lo : Nat) : ∀ n, (descRange lo n).Nodup := by
  intro n
  induction n with
  | zero => exact List.nodup_nil
  | succ m ih =>
    refine List.nodup_cons.mpr ⟨?_, ih⟩
    rw [mem_descRange]
    omega

theorem descRange_chain' (lo : Nat) : ∀ n, List.Chain' (· > ·) (descRange lo n) := by
  intro n
  induction n with
  | zero => exact List.chain'_nil
  | succ m ih =>
    cases m with
    | zero => exact List.chain'_singleton _
    | succ k =>
      simp only [descRange] at ih ⊢
      exact List.chain'_cons.mpr ⟨by omega, ih⟩

theorem descRange_head (lo n : Nat) : (descRange lo (n + 1)).head? = some (lo + n) :=
  rfl

theorem descRange_getLast (lo : Nat) : ∀ n, 0 < n → (descRange lo n).getLast? = some lo := by
  intro n
  induction n with
  | zero => intro h; omega
  | succ m ih =>
    intro _
    cases m with
    | zero => rfl
    | succ k =>
      simp only [descRange] at ih ⊢
      rw [List.getLast?_cons_cons]
      exact ih (by omega)

/-! Closed form of the initial free chain. -/

theorem chainWalk_initFatF (N : Nat) :
    ∀ (fuel b : Nat), 1 + fatBlocksOf N ≤ b → b < N → b - (1 + fatBlocksOf N) < fuel →
      chainWalk (initFatF N) fuel b =
        (descRange (1 + fatBlocksOf N) (b + 1 - (1 + fatBlocksOf N)), 0) := by
  intro fuel
  induction fuel with
  | zero => intro b h1 h2 h3; omega
  | succ n ih =>
    intro b h1 h2 h3
    have hb0 : ¬ b = 0 := by omega
    simp only [chainWalk, if_neg hb0]
    by_cases hL : 1 + fatBlocksOf N < b
    · have hf : initFatF N b = b - 1 := by
        unfold initFatF
        rw [if_pos ⟨hL, h2⟩]
      rw [hf, ih (b - 1) (by omega) (by omega) (by omega)]
      have he : b + 1 - (1 + fatBlocksOf N) = (b - 1 + 1 - (1 + fatBlocksOf N)) + 1 := by omega
      rw [he]
      simp only [descRange]
      have hb : 1 + fatBlocksOf N + (b - 1 + 1 - (1 + fatBlocksOf N)) = b := by omega
      rw [hb]
    · have hf : initFatF N b = 0 := by
        unfold initFatF
        rw [if_neg (by omega)]
      rw [hf, chainWalk_zero]
      have he : b + 1 - (1 + fatBlocksOf N) = 1 := by omega
      rw [he]
      simp only [descRange]
      have hb : 1 + fatBlocksOf N + 0 = b := by omega
      rw [hb]

/-! Repeated allocation walks the initial free chain. -/

theorem allocRec_spec (N : Nat) :
    ∀ (fuel : Nat) (s : FS), AllocInv N s →
      (allocRec fuel s).1 = (chainWalk (initFatF N) fuel s.avail).1
      ∧ (allocRec fuel s).2.avail = (chainWalk (initFatF N) fuel s.avail).2
      ∧ AllocInv N (allocRec fuel s).2 := by
  intro fuel
  induction fuel with
  | zero => intro s hs; exact ⟨rfl, rfl, hs⟩
  | succ n ih =>
    intro s hs
    obtain ⟨hnb, hlt, hlow⟩ := hs
    by_cases h0 : s.avail = 0
    · have hg : getBlock s = none := by
        simp [getBlock, h0]
      simp only [allocRec, hg]
      rw [h0, chainWalk_zero]
      exact ⟨rfl, rfl, ⟨hnb, hlt, hlow⟩⟩
    · have hg : getBlock s =
          some (s.avail, { s with avail := s.fat s.avail, fat := upd s.fat s.avail 0 }) := by
        simp [getBlock, h0]
      have hfa : s.fat s.avail = initFatF N s.avail := hlow _ le_rfl
      have hinv' : AllocInv N { s with avail := s.fat s.avail, fat := upd s.fat s.avail 0 } := by
        refine ⟨hnb, ?_, ?_⟩
        · show s.fat s.avail < N
          rw [hfa]
          exact initFatF_lt_N N _ (by omega)
        · intro i hi
          show upd s.fat s.avail 0 i = initFatF N i
          have hia : i < s.avail := by
            have := initFatF_lt N s.avail (by omega)
            simp only at hi
            rw [hfa] at hi
            omega
          rw [upd_ne _ _ _ _ (by omega)]
          exact hlow i (by omega)
      obtain ⟨ih1, ih2, ih3⟩ := ih _ hinv'
      simp only [allocRec, hg]
      refine ⟨?_, ?_, ih3⟩
      · simp only [chainWalk, if_neg h0]
        simp only [ih1]
        rw [hfa]
      · simp only [chainWalk, if_neg h0]
        simp only [ih2]
        rw [hfa]

/-! Claim theorems. -/

/-- C2 (amended): after free-list initialization with total block count `N`,
    enumerating the free chain from the initial `avail = N - 1` via repeated
    `fat` lookups visits every index of the closed interval
    `[lastAvail, N-1]` (that is, including `lastAvail = 1 + fatBlocks`
    itself, the first data block) exactly once, in strictly decreasing
    order, starting at `N - 1`, ending at `lastAvail`, and terminating on a
    `0` link. -/
theorem C2_free_chain (N : Nat) (hN : 1 + fatBlocksOf N + 1 ≤ N) :
    (∀ i, i ∈ chainList (initFS N).fat N (initFS N).avail ↔
        1 + fatBlocksOf N ≤ i ∧ i ≤ N - 1)
    ∧ (chainList (initFS N).fat N (initFS N).avail).Nodup
    ∧ List.Chain' (· > ·) (chainList (initFS N).fat N (initFS N).avail)
    ∧ (chainList (initFS N).fat N (initFS N).avail).head? = some (N - 1)
    ∧ (chainList (initFS N).fat N (initFS N).avail).getLast? = some (1 + fatBlocksOf N)
    ∧ (chainWalk (initFS N).fat N (initFS N).avail).2 = 0 := by
  have hcw : chainWalk (initFS N).fat N (initFS N).avail =
      (descRange (1 + fatBlocksOf N) (N - (1 + fatBlocksOf N)), 0) := by
    rw [chainWalk_congr (initFS N).fat (initFatF N) (initFS_fat N) N (initFS N).avail]
    show chainWalk (initFatF N) N (N - 1) = _
    rw [chainWalk_initFatF N N (N - 1) (by omega) (by omega) (by omega)]
    have he : N - 1 + 1 - (1 + fatBlocksOf N) = N - (1 + fatBlocksOf N) := by omega
    rw [he]
  have hcl : chainList (initFS N).fat N (initFS N).avail =
      descRange (1 + fatBlocksOf N) (N - (1 + fatBlocksOf N)) := by
    unfold chainList
    rw [hcw]
  refine ⟨?_, ?_, ?_, ?_, ?_, ?_⟩
  · intro i
    rw [hcl, mem_descRange]
    omega
  · rw [hcl]
    exact descRange_nodup _ _
  · rw [hcl]
    exact descRange_chain' _ _
  · rw [hcl]
    have he : N - (1 + fatBlocksOf N) = (N - (1 + fatBlocksOf N) - 1) + 1 := by omega
    rw [he, descRange_head]
    have hb : 1 + fatBlocksOf N + (N - (1 + fatBlocksOf N) - 1) = N - 1 := by omega
    rw [hb]
  · rw [hcl]
    exact descRange_getLast _ _ (by omega)
  · rw [hcw]

/-- C2 witness: the amended free-chain theorem applied at `N = 8`
    (`fatBlocks = 1`, `lastAvail = 2`): the enumeration's last visited
    index is `lastAvail` itself. -/
theorem C2_free_chain_witness :
    1 + fatBlocksOf 8 + 1 ≤ 8
    ∧ (chainList (initFS 8).fat 8 (initFS 8).avail).getLast? = some (1 + fatBlocksOf 8) :=
  ⟨by decide, (C2_free_chain 8 (by decide)).2.2.2.2.1⟩

/-- C2 counterexample: at `N = 8` (`lastAvail = 2`) the free-chain
    enumeration visits index 2 = `lastAvail`, which lies outside the
    half-open interval `(lastAvail, N-1]` the claim allows, so the claim as
    stated is false. -/
theorem C2_interval_cex :
    ¬ (∀ i ∈ chainList (initFS 8).fat 8 (initFS 8).avail, 1 + fatBlocksOf 8 < i) := by
  decide

/-- C3 (amended): on a freshly initialized `N`-block image, repeated
    `getBlock` calls never return the same index twice and never return an
    index below `lastAvail = 1 + fatBlocks`; `getBlock` fails exactly when
    `avail = 0`; and the number of successful allocations before the
    DiskFull failure is `N - lastAvail` (the claim's `N - 1 - lastAvail`
    is off by one). -/
theorem C3_allocate_exhaustion (N : Nat) (hN : 1 + fatBlocksOf N + 1 ≤ N) :
    (allocRec N (initFS N)).1.Nodup
    ∧ (∀ j ∈ (allocRec N (initFS N)).1, 1 + fatBlocksOf N ≤ j)
    ∧ (∀ t : FS, getBlock t = none ↔ t.avail = 0)
    ∧ (allocRec N (initFS N)).1.length = N - (1 + fatBlocksOf N)
    ∧ (allocRec N (initFS N)).2.avail = 0
    ∧ getBlock (allocRec N (initFS N)).2 = none := by
  have hinv : AllocInv N (initFS N) := by
    refine ⟨rfl, ?_, fun i hi => initFS_fat N i⟩
    show N - 1 < N
    omega
  obtain ⟨h1, h2, h3⟩ := allocRec_spec N N (initFS N) hinv
  have hcw : chainWalk (initFatF N) N (initFS N).avail =
      (descRange (1 + fatBlocksOf N) (N - (1 + fatBlocksOf N)), 0) := by
    show chainWalk (initFatF N) N (N - 1) = _
    rw [chainWalk_initFatF N N (N - 1) (by omega) (by omega) (by omega)]
    have he : N - 1 + 1 - (1 + fatBlocksOf N) = N - (1 + fatBlocksOf N) := by omega
    rw [he]
  rw [hcw] at h1 h2
  refine ⟨?_, ?_, ?_, ?_, ?_, ?_⟩
  · rw [h1]
    exact descRange_nodup _ _
  · intro j hj
    rw [h1, mem_descRange] at hj
    omega
  · intro t
    constructor
    · intro ht
      by_contra h0
      simp [getBlock, h0] at ht
    · intro ht
      simp [getBlock, ht]
  · rw [h1, descRange_length]
  · exact h2
  · simp [getBlock, h2]

/-- C3 witness: the amended allocation theorem applied at `N = 8`: exactly
    `8 - lastAvail = 6` allocations succeed before DiskFull. -/
theorem C3_allocate_exhaustion_witness :
    1 + fatBlocksOf 8 + 1 ≤ 8
    ∧ (allocRec 8 (initFS 8)).1.length = 8 - (1 + fatBlocksOf 8) :=
  ⟨by decide, (C3_allocate_exhaustion 8 (by decide)).2.2.2.1⟩

/-- C3 counterexample: at `N = 8` (`lastAvail = 2`) a fresh image yields 6
    successful allocations before DiskFull, not `N - 1 - lastAvail = 5` as
    the claim states. -/
theorem C3_count_cex :
    (allocRec 8 (initFS 8)).1.length = 6
    ∧ ¬ ((allocRec 8 (initFS 8)).1.length = 8 - 1 - (1 + fatBlocksOf 8)) := by
  decide

set_option maxRecDepth 100000 in
set_option maxHeartbeats 1600000 in
/-- C1 (code behaviour at the failing input): packing a file of exactly 504
    bytes (`nBlocks = 16`) produces a chain of two blocks, `[14, 13]` — the
    head block plus a spurious empty trailing block allocated because the
    loop tests `leftInBlock == 0` before reading and thus allocates
    unconditionally after a full block — while the recorded length is 504
    (all content fits in the head block).  The claim/spec require exactly 1
    block here. -/
theorem C1_boundary_504 :
    c1run.isSome = true
    ∧ c1head = 14
    ∧ chainList c1img.fat 16 c1head = [14, 13]
    ∧ parseFileLen c1img c1head = 504 := by
  decide

/-- C7 (code behaviour at the failing input): with arguments
    `mkfs disk.img 0 file0` the argument-handling prologue of `main`
    proceeds to open and truncate the backing store even though the block
    count 0 is not positive (the only validation performed is `argc < 4`,
    which does fire when no file argument is given). -/
theorem C7_validation_gap :
    mainArgs ["mkfs", "disk.img", "0", "file0"]
      = ArgCheck.proceeds "disk.img" 0 ["file0"]
    ∧ ¬ (0 < atoiModel "0")
    ∧ mainArgs ["mkfs", "disk.img"] = ArgCheck.usageError := by
  decide


/-! Helper lemmas for the invariant framework. -/

theorem nameField_length (src : List Nat) : (nameField src).length = 12 := by
  simp only [nameField, List.length_append, List.length_take, List.length_replicate]
  omega

theorem readWord_congr (m1 m2 : Nat → Nat) (a : Nat)
    (h : ∀ d, d < 4 → m1 (a + d) = m2 (a + d)) : readWord m1 a = readWord m2 a := by
  have h0 := h 0 (by omega)
  have h1 := h 1 (by omega)
  have h2 := h 2 (by omega)
  have h3 := h 3 (by omega)
  simp only [Nat.add_zero] at h0
  simp only [readWord, h0, h1, h2, h3]

theorem linked_congr (f g : Nat → Nat) :
    ∀ l : List Nat, (∀ u ∈ l, f u = g u) → linked f l → linked g l
  | [], _, _ => trivial
  | [u], h, hl => by
    show g u = 0
    rw [← h u (by simp)]
    exact hl
  | u :: v :: rest, h, hl => by
    refine ⟨?_, linked_congr f g (v :: rest) (fun w hw => h w (by simp [hw])) hl.2⟩
    rw [← h u (by simp)]
    exact hl.1

theorem chain'_gt_lt : ∀ (tl : List Nat) (hd : Nat),
    List.Chain' (· > ·) (hd :: tl) → ∀ x ∈ tl, x < hd := by
  intro tl
  induction tl with
  | nil => intro hd _ x hx; simp at hx
  | cons v rest ih =>
    intro hd hc x hx
    have h1 : hd > v := (List.chain'_cons.mp hc).1
    have h2 := (List.chain'_cons.mp hc).2
    rcases List.mem_cons.mp hx with hx | hx
    · omega
    · have := ih v h2 x hx
      omega

theorem chain'_gt_nodup : ∀ l : List Nat, List.Chain' (· > ·) l → l.Nodup := by
  intro l
  induction l with
  | nil => intro _; exact List.nodup_nil
  | cons hd tl ih =>
    intro hc
    refine List.nodup_cons.mpr ⟨?_, ih (List.Chain'.tail hc)⟩
    intro hmem
    have := chain'_gt_lt tl hd hc hd hmem
    omega

theorem chain'_gt_length : ∀ (tl : List Nat) (hd : Nat),
    List.Chain' (· > ·) (hd :: tl) → tl.length ≤ hd := by
  intro tl
  induction tl with
  | nil => intro hd _; simp
  | cons v rest ih =>
    intro hd hc
    have h1 : hd > v := (List.chain'_cons.mp hc).1
    have h2 := ih v (List.chain'_cons.mp hc).2
    simp only [List.length_cons]
    omega

theorem chainWalk_of_linked (f : Nat → Nat) :
    ∀ (tl : List Nat) (hd : Nat) (fuel : Nat),
      linked f (hd :: tl) → (∀ b ∈ hd :: tl, 0 < b) →
      (hd :: tl).length ≤ fuel → chainWalk f fuel hd = (hd :: tl, 0) := by
  intro tl
  induction tl with
  | nil =>
    intro hd fuel hlink hpos hlen
    cases fuel with
    | zero => simp at hlen
    | succ fuel =>
      have hhd : ¬ hd = 0 := by
        have := hpos hd (by simp)
        omega
      simp only [chainWalk, if_neg hhd]
      have hf : f hd = 0 := hlink
      rw [hf, chainWalk_zero]
  | cons v rest ih =>
    intro hd fuel hlink hpos hlen
    cases fuel with
    | zero => simp at hlen
    | succ fuel =>
      have hhd : ¬ hd = 0 := by
        have := hpos hd (by simp)
        omega
      simp only [chainWalk, if_neg hhd]
      have hf : f hd = v := hlink.1
      rw [hf, ih v fuel hlink.2 (fun b hb => hpos b (by simp [List.mem_cons] at hb ⊢; tauto))
        (by simp at hlen ⊢; omega)]


/-! The `packLoop` master lemma. -/

theorem packLoop_spec (N head : Nat) :
    ∀ (fuel : Nat) (s : FS) (cur off left tot : Nat) (content : List Nat)
      (bs : List Nat) (s' : FS),
      packLoop head fuel s cur off left tot content = some (bs, s') →
      2 * content.length + (if left = 0 then 1 else 0) < fuel →
      AllocInv N s →
      s.avail < cur → cur ≤ head → head < N →
      off + left = 512 →
      (cur = head → 8 ≤ off) →
      s.fat cur = 0 →
      PackOut N head cur tot content s s' bs := by
  intro fuel
  induction fuel with
  | zero =>
    intro s cur off left tot content bs s' h hfuel
    omega
  | succ fuel ih =>
    intro s cur off left tot content bs s' h hfuel hinv hcur hch hhN hsum hoff hfat0
    obtain ⟨hnb, hltN, hlow⟩ := hinv
    simp only [packLoop] at h
    by_cases hleft : left = 0
    · -- boundary: allocate a fresh block before reading
      rw [if_pos hleft] at h
      by_cases h0 : s.avail = 0
      · rw [show getBlock s = none by simp [getBlock, h0]] at h
        exact absurd h (by simp)
      have hgb : getBlock s = some (s.avail,
          { s with avail := s.fat s.avail, fat := upd s.fat s.avail 0 }) := by
        simp [getBlock, h0]
      simp only [hgb] at h
      have havail0 : s.fat s.avail = initFatF N s.avail := hlow _ le_rfl
      have hlt : initFatF N s.avail < s.avail := initFatF_lt N _ (by omega)
      cases hp : (packLoop head fuel
          { s with
            avail := s.fat s.avail
            fat := upd (upd s.fat s.avail 0) cur s.avail }
          s.avail 0 512 tot content) with
      | none =>
        rw [hp] at h
        exact absurd h (by simp)
      | some r =>
        obtain ⟨bs1, st1⟩ := r
        rw [hp] at h
        simp only [Option.some.injEq, Prod.mk.injEq] at h
        obtain ⟨hbs, hs'⟩ := h
        subst hbs
        subst hs'
        have hinv2 : AllocInv N
            { s with
              avail := s.fat s.avail
              fat := upd (upd s.fat s.avail 0) cur s.avail } := by
          refine ⟨hnb, ?_, ?_⟩
          · show s.fat s.avail < N
            rw [havail0]
            exact initFatF_lt_N N _ (by omega)
          · intro i hi
            show upd (upd s.fat s.avail 0) cur s.avail i = initFatF N i
            replace hi : i ≤ s.fat s.avail := hi
            rw [havail0] at hi
            rw [upd_ne _ _ _ _ (by omega), upd_ne _ _ _ _ (by omega)]
            exact hlow i (by omega)
        have po := ih _ s.avail 0 512 tot content bs1 st1 hp
          (by
            have hz : (if (512 : Nat) = 0 then 1 else 0) = 0 := rfl
            rw [hz]
            rw [if_pos hleft] at hfuel
            omega)
          hinv2
          (by show s.fat s.avail < s.avail; rw [havail0]; omega)
          (by omega) hhN (by omega)
          (by intro heq; omega)
          (by
            show upd (upd s.fat s.avail 0) cur s.avail s.avail = 0
            rw [upd_ne _ _ _ _ (by omega), upd_self])
        have hav2 : st1.avail ≤ s.fat s.avail := po.avail_le
        have hfa2 : s.fat s.avail < s.avail := by rw [havail0]; omega
        refine ⟨po.inv, po.root_eq, ?_, ?_, ?_, ?_, ?_, ?_, po.header⟩
        · show st1.avail ≤ s.avail
          omega
        · intro b hb
          rcases List.mem_cons.mp hb with hb | hb
          · subst hb
            exact ⟨by omega, hcur⟩
          · obtain ⟨hb1, hb2⟩ := po.bs_mem b hb
            exact ⟨hb1, by omega⟩
        · exact List.chain'_cons.mpr ⟨hcur, po.chain⟩
        · refine ⟨?_, po.links⟩
          have hfr := po.fat_frame cur (by omega)
          rw [hfr]
          show upd (upd s.fat s.avail 0) cur s.avail cur = s.avail
          rw [upd_self]
        · intro i hi
          rw [po.fat_frame i (by omega)]
          show upd (upd s.fat s.avail 0) cur s.avail i = s.fat i
          rw [upd_ne _ _ _ _ (by omega), upd_ne _ _ _ _ (by omega)]
        · intro a ha
          exact po.mem_frame a ha
    · rw [if_neg hleft] at h
      by_cases hn : min left content.length = 0
      · -- the read returns 0: end of input, write the length header
        rw [if_pos hn] at h
        simp only [Option.some.injEq, Prod.mk.injEq] at h
        obtain ⟨hbs, hs'⟩ := h
        subst hbs
        subst hs'
        have hlen0 : content.length = 0 := by omega
        refine ⟨⟨hnb, hltN, hlow⟩, rfl, le_refl _, ?_, List.chain'_singleton _, hfat0,
          ?_, ?_, ?_⟩
        · intro b hb
          simp at hb
        · intro i _
          rfl
        · intro a ha
          show writeWord s.mem (toPtr head 4) tot a = s.mem a
          apply writeWord_frame
          simp only [toPtr] at ha ⊢
          rcases ha with ha | ha | ha
          · omega
          · omega
          · omega
        · show readWord (writeWord s.mem (toPtr head 4) tot) (toPtr head 4)
            = (tot + content.length) % 4294967296
          rw [readWord_writeWord, hlen0]
          rfl
      · -- the read returns n = min left content.length > 0 bytes
        rw [if_neg hn] at h
        have hTn : (content.take (min left content.length)).length
            = min left content.length := by
          simp only [List.length_take]
          omega
        have po := ih _ cur (off + min left content.length)
          (left - min left content.length) (tot + min left content.length)
          (content.drop (min left content.length)) bs s' h
          (by
            simp only [List.length_drop]
            rw [if_neg hleft] at hfuel
            split <;> omega)
          ⟨hnb, hltN, hlow⟩
          hcur hch hhN (by omega)
          (by intro heq; have := hoff heq; omega)
          hfat0
        refine ⟨po.inv, po.root_eq, po.avail_le, po.bs_mem, po.chain, po.links,
          po.fat_frame, ?_, ?_⟩
        · intro a ha
          rw [po.mem_frame a ha]
          show writeBytes s.mem (toPtr cur off) (content.take (min left content.length)) a
            = s.mem a
          apply writeBytes_frame
          rw [hTn]
          simp only [toPtr] at ha ⊢
          have hav : s'.avail ≤ s.avail := po.avail_le
          rcases ha with ha | ha | ha
          · right
            omega
          · left
            omega
          · by_cases hcm : cur = head
            · left
              have := hoff hcm
              omega
            · right
              omega
        · have hdl : (content.drop (min left content.length)).length
              = content.length - min left content.length := by
            simp only [List.length_drop]
          have hh := po.header
          rw [hdl] at hh
          rw [hh]
          have he : tot + min left content.length
              + (content.length - min left content.length) = tot + content.length := by
            omega
          rw [he]

/-! The `oneFile` master lemma. -/

theorem mem_of_getLast : ∀ (l : List Nat) (a : Nat), l.getLast? = some a → a ∈ l := by
  intro l
  induction l with
  | nil => intro a ha; simp at ha
  | cons hd tl ih =>
    intro a ha
    cases tl with
    | nil =>
      simp only [List.getLast?_singleton, Option.some.injEq] at ha
      simp [ha]
    | cons v rest =>
      rw [List.getLast?_cons_cons] at ha
      exact List.mem_cons.mpr (Or.inr (ih a ha))

theorem oneFile_spec (N : Nat) (content : List Nat) (s : FS) (x : Nat)
    (bs : List Nat) (s' : FS)
    (h : oneFile content s = some (x, bs, s')) (hinv : AllocInv N s) :
    OneOut N content s x bs s' := by
  obtain ⟨hnb, hltN, hlow⟩ := hinv
  unfold oneFile at h
  by_cases h0 : s.avail = 0
  · rw [show getBlock s = none by simp [getBlock, h0]] at h
    exact absurd h (by simp)
  have hgb : getBlock s = some (s.avail,
      { s with avail := s.fat s.avail, fat := upd s.fat s.avail 0 }) := by
    simp [getBlock, h0]
  simp only [hgb] at h
  have havail0 : s.fat s.avail = initFatF N s.avail := hlow _ le_rfl
  have hlt : initFatF N s.avail < s.avail := initFatF_lt N _ (by omega)
  cases hp : (packLoop s.avail (2 * content.length + 2)
      { s with
        avail := s.fat s.avail
        fat := upd s.fat s.avail 0
        mem := writeWord s.mem (toPtr s.avail 0) 1 }
      s.avail 8 (512 - 8) 0 content) with
  | none =>
    rw [hp] at h
    exact absurd h (by simp)
  | some r =>
    obtain ⟨bs1, st1⟩ := r
    rw [hp] at h
    simp only [Option.some.injEq, Prod.mk.injEq] at h
    obtain ⟨hx, hbs, hs'⟩ := h
    subst hx
    subst hbs
    subst hs'
    have hinv2 : AllocInv N
        { s with
          avail := s.fat s.avail
          fat := upd s.fat s.avail 0
          mem := writeWord s.mem (toPtr s.avail 0) 1 } := by
      refine ⟨hnb, ?_, ?_⟩
      · show s.fat s.avail < N
        rw [havail0]
        exact initFatF_lt_N N _ (by omega)
      · intro i hi
        show upd s.fat s.avail 0 i = initFatF N i
        replace hi : i ≤ s.fat s.avail := hi
        rw [havail0] at hi
        rw [upd_ne _ _ _ _ (by omega)]
        exact hlow i (by omega)
    have po := packLoop_spec N s.avail (2 * content.length + 2) _ s.avail 8 (512 - 8) 0
      content bs1 st1 hp
      (by norm_num)
      hinv2
      (by show s.fat s.avail < s.avail; rw [havail0]; omega)
      le_rfl (by omega) (by norm_num)
      (fun _ => by norm_num)
      (by
        show upd s.fat s.avail 0 s.avail = 0
        rw [upd_self])
    have hav2 : st1.avail ≤ s.fat s.avail := po.avail_le
    have hfa2 : s.fat s.avail < s.avail := by rw [havail0]; omega
    refine ⟨rfl, by omega, po.inv, po.root_eq, by omega, po.chain, po.bs_mem, po.links,
      ?_, ?_, ?_, ?_⟩
    · intro i hi
      rw [po.fat_frame i hi]
      show upd s.fat s.avail 0 i = s.fat i
      rw [upd_ne _ _ _ _ (by omega)]
    · intro a ha
      have h1 : st1.mem a = writeWord s.mem (toPtr s.avail 0) 1 a := by
        rcases ha with ha | ha
        · exact po.mem_frame a (Or.inl ha)
        · exact po.mem_frame a (Or.inr (Or.inl ha))
      rw [h1]
      show writeWord s.mem (toPtr s.avail 0) 1 a = s.mem a
      apply writeWord_frame
      simp only [toPtr] at ha ⊢
      rcases ha with ha | ha
      · omega
      · omega
    · have hc : readWord st1.mem (toPtr s.avail 0)
          = readWord (writeWord s.mem (toPtr s.avail 0) 1) (toPtr s.avail 0) := by
        apply readWord_congr
        intro d hd
        exact po.mem_frame _ (by simp only [toPtr]; omega)
      rw [hc, readWord_writeWord]
    · have hh := po.header
      rw [Nat.zero_add] at hh
      exact hh

/-! The per-file-loop master lemma. -/

theorem filesLoop_spec (N root : Nat) (hrootN : root < N) (hN32 : N ≤ 4294967296) :
    ∀ (files : List (String × List Nat)) (i : Nat) (s s' : FS) (hds allocs : List Nat),
      filesLoop root i s files = some (s', hds, allocs) →
      AllocInv N s → s.avail < root →
      LoopOut N root i files s s' hds allocs := by
  intro files
  induction files with
  | nil =>
    intro i s s' hds allocs h hinv hroot
    simp only [filesLoop, Option.some.injEq, Prod.mk.injEq] at h
    obtain ⟨rfl, rfl, rfl⟩ := h
    refine ⟨hinv, rfl, le_refl _, fun k _ => rfl, fun a _ _ => rfl, rfl, ?_, ?_, ?_, ?_⟩
    · intro j hj
      simp at hj
    · intro hd hmem
      simp at hmem
    · intro a ha
      simp at ha
    · exact List.chain'_singleton _
  | cons f rest ih =>
    obtain ⟨nm, content⟩ := f
    intro i s s' hds allocs h hinv hroot
    simp only [filesLoop] at h
    cases ho : (oneFile content s) with
    | none =>
      rw [ho] at h
      exact absurd h (by simp)
    | some r =>
      obtain ⟨x, bs, s1⟩ := r
      simp only [ho] at h
      cases hl : (filesLoop root (i + 1)
          { s1 with
            mem := writeWord
                (writeBytes s1.mem (toPtr root (8 + 16 * i))
                  (nameField (strBytes (basenameStr nm))))
                (toPtr root (8 + 16 * i) + 12) x } rest) with
      | none =>
        rw [hl] at h
        exact absurd h (by simp)
      | some r2 =>
        obtain ⟨st, hds1, as1⟩ := r2
        rw [hl] at h
        simp only [Option.some.injEq, Prod.mk.injEq] at h
        obtain ⟨rfl, rfl, rfl⟩ := h
        obtain ⟨hnb, hltN, hlow⟩ := hinv
        have oo := oneFile_spec N content s x bs s1 ho ⟨hnb, hltN, hlow⟩
        have hxs : x = s.avail := oo.x_eq
        have hs1x : s1.avail < x := oo.avail_lt
        have hxroot : x < root := by omega
        have hxN : x < N := by omega
        have hproj : (FS.avail { s1 with
            mem := writeWord
                (writeBytes s1.mem (toPtr root (8 + 16 * i))
                  (nameField (strBytes (basenameStr nm))))
                (toPtr root (8 + 16 * i) + 12) x }) = s1.avail := rfl
        have lo := ih (i + 1)
          { s1 with
            mem := writeWord
                (writeBytes s1.mem (toPtr root (8 + 16 * i))
                  (nameField (strBytes (basenameStr nm))))
                (toPtr root (8 + 16 * i) + 12) x } st hds1 as1 hl
          oo.inv
          (by omega)
        have hstav : st.avail ≤ s1.avail := by
          have := lo.avail_le
          omega
        refine ⟨lo.inv, lo.root_eq.trans oo.root_eq, by omega, ?_, ?_, ?_, ?_, ?_, ?_, ?_⟩
        · -- fat_frame
          intro k hk
          have h1 : st.fat k = s1.fat k := lo.fat_frame k (by omega)
          rw [h1]
          exact oo.fat_frame k hk
        · -- mem_low
          intro a h1 h2
          have h3 : st.mem a = writeWord
              (writeBytes s1.mem (toPtr root (8 + 16 * i))
                (nameField (strBytes (basenameStr nm))))
              (toPtr root (8 + 16 * i) + 12) x a :=
            lo.mem_low a h1 (by omega)
          have h4 : writeWord
              (writeBytes s1.mem (toPtr root (8 + 16 * i))
                (nameField (strBytes (basenameStr nm))))
              (toPtr root (8 + 16 * i) + 12) x a
              = writeBytes s1.mem (toPtr root (8 + 16 * i))
                (nameField (strBytes (basenameStr nm))) a := by
            apply writeWord_frame
            left
            simp only [toPtr]
            omega
          have h5 : writeBytes s1.mem (toPtr root (8 + 16 * i))
              (nameField (strBytes (basenameStr nm))) a = s1.mem a := by
            apply writeBytes_frame
            left
            simp only [toPtr]
            omega
          rw [h3, h4, h5]
          exact oo.mem_frame a (Or.inl (by omega))
        · -- hds_len
          simp only [List.length_cons, lo.hds_len]
        · -- entries
          intro j hj
          cases j with
          | zero =>
            simp only [Nat.add_zero, List.getD_cons_zero]
            constructor
            · intro k hk
              have hlt12 : k < (nameField (strBytes (basenameStr nm))).length := by
                rw [nameField_length]
                exact hk
              have h3 : st.mem (toPtr root (8 + 16 * i) + k) = writeWord
                  (writeBytes s1.mem (toPtr root (8 + 16 * i))
                    (nameField (strBytes (basenameStr nm))))
                  (toPtr root (8 + 16 * i) + 12) x (toPtr root (8 + 16 * i) + k) :=
                lo.mem_low _ (by simp only [toPtr]; omega) (by simp only [toPtr]; omega)
              have h4 : writeWord
                  (writeBytes s1.mem (toPtr root (8 + 16 * i))
                    (nameField (strBytes (basenameStr nm))))
                  (toPtr root (8 + 16 * i) + 12) x (toPtr root (8 + 16 * i) + k)
                  = writeBytes s1.mem (toPtr root (8 + 16 * i))
                    (nameField (strBytes (basenameStr nm))) (toPtr root (8 + 16 * i) + k) := by
                apply writeWord_frame
                left
                omega
              rw [h3, h4]
              exact writeBytes_getD _ _ _ _ hlt12
            · have h3 : readWord st.mem (toPtr root (8 + 16 * i) + 12) = readWord
                  (writeWord
                    (writeBytes s1.mem (toPtr root (8 + 16 * i))
                      (nameField (strBytes (basenameStr nm))))
                    (toPtr root (8 + 16 * i) + 12) x)
                  (toPtr root (8 + 16 * i) + 12) := by
                apply readWord_congr
                intro d hd
                exact lo.mem_low _ (by simp only [toPtr]; omega) (by simp only [toPtr]; omega)
              rw [h3, readWord_writeWord]
              show x % 4294967296 = (x :: hds1).getD 0 0
              rw [Nat.mod_eq_of_lt (by omega)]
              rfl
          | succ j1 =>
            have hj1 : j1 < rest.length := by
              simp only [List.length_cons] at hj
              omega
            have he := lo.entries j1 hj1
            have harith : i + 1 + j1 = i + (j1 + 1) := by omega
            rw [harith] at he
            refine ⟨?_, ?_⟩
            · intro k hk
              have := he.1 k hk
              simpa using this
            · have := he.2
              simpa using this
        · -- chains
          intro hd hmem
          rcases List.mem_cons.mp hmem with hmem | hmem
          · subst hmem
            refine ⟨bs, oo.chain, ?_, ?_⟩
            · apply linked_congr s1.fat
              · intro u hu
                rcases List.mem_cons.mp hu with hu | hu
                · subst hu
                  exact (lo.fat_frame u (by omega)).symm
                · obtain ⟨hu1, hu2⟩ := oo.bs_mem u hu
                  exact (lo.fat_frame u (by omega)).symm
              · exact oo.links
            · intro b hb
              rcases List.mem_cons.mp hb with hb | hb
              · subst hb
                exact ⟨by omega, by omega, by omega⟩
              · obtain ⟨hb1, hb2⟩ := oo.bs_mem b hb
                exact ⟨by omega, by omega, by omega⟩
          · exact lo.chains hd hmem
        · -- allocs_le
          intro a ha
          rcases List.mem_append.mp ha with ha | ha
          · rcases List.mem_cons.mp ha with ha | ha
            · subst ha
              exact ⟨by omega, by omega⟩
            · obtain ⟨ha1, ha2⟩ := oo.bs_mem a ha
              exact ⟨by omega, by omega⟩
          · obtain ⟨ha1, ha2⟩ := lo.allocs_le a ha
            exact ⟨by omega, by omega⟩
        · -- allocs_chain
          rw [List.append_assoc]
          refine List.chain'_append.mpr ⟨oo.chain, lo.allocs_chain, ?_⟩
          intro u hu v hv
          have humem : u ∈ x :: bs := mem_of_getLast _ u hu
          have hu1 : s1.avail < u := by
            rcases List.mem_cons.mp humem with h1 | h1
            · omega
            · exact (oo.bs_mem u h1).1
          have hv1 : v ≤ s1.avail := by
            cases as1 with
            | nil =>
              simp only [List.nil_append, List.head?_cons, Option.mem_def,
                Option.some.injEq] at hv
              omega
            | cons a0 t =>
              simp only [List.cons_append, List.head?_cons, Option.mem_def,
                Option.some.injEq] at hv
              have h6 := (lo.allocs_le a0 (by simp)).1
              omega
          omega

/-! The `mkfs` master lemma. -/

theorem getBlock_some (s : FS) (r : Nat × FS) (h : getBlock s = some r) :
    s.avail ≠ 0
    ∧ r = (s.avail, { s with avail := s.fat s.avail, fat := upd s.fat s.avail 0 }) := by
  by_cases h0 : s.avail = 0
  · simp [getBlock, h0] at h
  · refine ⟨h0, ?_⟩
    rw [show getBlock s = some (s.avail,
        { s with avail := s.fat s.avail, fat := upd s.fat s.avail 0 }) from by
      simp [getBlock, h0]] at h
    exact (Option.some.inj h).symm

theorem mkfs_spec (N : Nat) (files : List (String × List Nat)) (s : FS)
    (hds allocs : List Nat) (hN32 : N ≤ 4294967296)
    (h : mkfs N files = some (s, hds, allocs)) :
    MkfsOut N files s hds allocs := by
  unfold mkfs at h
  cases hg : getBlock (initFS N) with
  | none =>
    rw [hg] at h
    exact absurd h (by simp)
  | some r =>
    obtain ⟨hne, hr⟩ := getBlock_some _ _ hg
    subst hr
    simp only [hg] at h
    have havail : (initFS N).avail = N - 1 := rfl
    have hN2 : 2 ≤ N := by omega
    have hfati : ∀ i, (initFS N).fat i = initFatF N i := initFS_fat N
    have hBIGav : (initFS N).fat (initFS N).avail < N - 1 := by
      rw [hfati, havail]
      exact initFatF_lt N (N - 1) (by omega)
    have hBIGavN : (initFS N).fat (initFS N).avail < N := by omega
    cases hl : (filesLoop (initFS N).avail 0
        { initFS N with
          avail := (initFS N).fat (initFS N).avail
          root := (initFS N).avail
          fat := upd (initFS N).fat (initFS N).avail 0
          mem := writeWord (writeWord (initFS N).mem (toPtr (initFS N).avail 0) 2)
              (toPtr (initFS N).avail 4) (files.length * 16) } files) with
    | none =>
      rw [hl] at h
      exact absurd h (by simp)
    | some r2 =>
      obtain ⟨st, hds1, as1⟩ := r2
      rw [hl] at h
      simp only [Option.some.injEq, Prod.mk.injEq] at h
      obtain ⟨rfl, rfl, rfl⟩ := h
      have hinv3 : AllocInv N
          { initFS N with
            avail := (initFS N).fat (initFS N).avail
            root := (initFS N).avail
            fat := upd (initFS N).fat (initFS N).avail 0
            mem := writeWord (writeWord (initFS N).mem (toPtr (initFS N).avail 0) 2)
                (toPtr (initFS N).avail 4) (files.length * 16) } := by
        refine ⟨rfl, hBIGavN, ?_⟩
        intro i hi
        show upd (initFS N).fat (initFS N).avail 0 i = initFatF N i
        replace hi : i ≤ (initFS N).fat (initFS N).avail := hi
        rw [upd_ne _ _ _ _ (by omega)]
        exact hfati i
      have lo := filesLoop_spec N (initFS N).avail (by omega) hN32 files 0 _ st hds1 as1
        hl hinv3 (by show (initFS N).fat (initFS N).avail < (initFS N).avail; omega)
      have hproj : (FS.avail { initFS N with
          avail := (initFS N).fat (initFS N).avail
          root := (initFS N).avail
          fat := upd (initFS N).fat (initFS N).avail 0
          mem := writeWord (writeWord (initFS N).mem (toPtr (initFS N).avail 0) 2)
              (toPtr (initFS N).avail 4) (files.length * 16) })
          = (initFS N).fat (initFS N).avail := rfl
      have hstav : st.avail < N - 1 := by
        have := lo.avail_le
        omega
      refine ⟨hN2, ?_, lo.inv.1, lo.hds_len, ?_, ?_, ?_, ?_, ?_, ?_⟩
      · -- root_eq
        have := lo.root_eq
        rw [this]
        exact havail
      · -- root_tag
        rw [← havail]
        have hc : readWord st.mem (toPtr (initFS N).avail 0)
            = readWord (writeWord (writeWord (initFS N).mem (toPtr (initFS N).avail 0) 2)
                (toPtr (initFS N).avail 4) (files.length * 16)) (toPtr (initFS N).avail 0) := by
          apply readWord_congr
          intro d hd
          exact lo.mem_low _ (by simp only [toPtr]; omega) (by simp only [toPtr]; omega)
        rw [hc]
        rw [readWord_writeWord_frame _ _ _ _ (by simp only [toPtr]; omega)]
        rw [readWord_writeWord]
      · -- root_len
        rw [← havail]
        have hc : readWord st.mem (toPtr (initFS N).avail 4)
            = readWord (writeWord (writeWord (initFS N).mem (toPtr (initFS N).avail 0) 2)
                (toPtr (initFS N).avail 4) (files.length * 16)) (toPtr (initFS N).avail 4) := by
          apply readWord_congr
          intro d hd
          exact lo.mem_low _ (by simp only [toPtr]; omega) (by simp only [toPtr]; omega)
        rw [hc, readWord_writeWord]
      · -- entries
        intro j hj
        have he := lo.entries j hj
        rw [Nat.zero_add] at he
        rw [← havail]
        exact he
      · -- chains
        exact lo.chains
      · -- allocs_head
        show some (initFS N).avail = some (N - 1)
        rw [havail]
      · -- allocs_chain
        show List.Chain' (· > ·) (((initFS N).avail :: as1) ++ [st.avail])
        rw [List.cons_append]
        refine List.chain'_cons'.mpr ⟨?_, lo.allocs_chain⟩
        intro v hv
        cases as1 with
        | nil =>
          simp only [List.nil_append, List.head?_cons, Option.mem_def,
            Option.some.injEq] at hv
          omega
        | cons a0 t =>
          simp only [List.cons_append, List.head?_cons, Option.mem_def,
            Option.some.injEq] at hv
          have h6 := (lo.allocs_le a0 (by simp)).1
          omega

/-- C4: after a successful run, the root directory block's recorded length
    field equals `nFiles * 16`; its 16-byte entries appear in the order of
    the input file arguments at successive 16-byte offsets starting at byte
    8; each entry's first 12 bytes hold the basename of the corresponding
    input path truncated to 12 bytes (NUL-padded by `strncpy` when
    shorter); and each entry's last 4 bytes hold the start-block index the
    File Packer returned for that file. -/
theorem C4_root_directory (N : Nat) (files : List (String × List Nat)) (s : FS)
    (hds allocs : List Nat) (hN : N < 2 ^ 31) (hF : files.length * 16 < 4294967296)
    (h : mkfs N files = some (s, hds, allocs)) :
    readWord s.mem (toPtr s.root 4) = files.length * 16
    ∧ hds.length = files.length
    ∧ ∀ j, j < files.length →
        (∀ k, k < 12 → s.mem (toPtr s.root (8 + 16 * j) + k)
            = (nameField (strBytes (basenameStr (files.getD j ("", [])).1))).getD k 0)
        ∧ readWord s.mem (toPtr s.root (8 + 16 * j) + 12) = hds.getD j 0 := by
  have mo := mkfs_spec N files s hds allocs (by omega) h
  rw [mo.root_eq]
  refine ⟨?_, mo.hds_len, mo.entries⟩
  rw [mo.root_len, Nat.mod_eq_of_lt hF]

/-- C4 witness: the root-directory theorem applied to the concrete run
    `mkfs 8 [("w4/fileC", [1, 2, 3])]`: the root block's length field reads
    back `1 * 16` and exactly one start block was recorded. -/
theorem C4_root_directory_witness :
    (8 : Nat) < 2 ^ 31 ∧ (1 : Nat) * 16 < 4294967296
    ∧ readWord w4img.mem (toPtr w4img.root 4) = 1 * 16 ∧ w4heads.length = 1 := by
  refine ⟨by norm_num, by norm_num, ?_⟩
  unfold w4img w4heads w4run
  cases hrun : mkfs 8 [("w4/fileC", [1, 2, 3])] with
  | none =>
    have hsome : (mkfs 8 [("w4/fileC", [1, 2, 3])]).isSome = true := by decide
    rw [hrun] at hsome
    simp at hsome
  | some r =>
    obtain ⟨s0, hds0, as0⟩ := r
    have hc := C4_root_directory 8 [("w4/fileC", [1, 2, 3])] s0 hds0 as0 (by norm_num)
      (by norm_num) hrun
    refine ⟨?_, ?_⟩
    · simpa using hc.1
    · simpa using hc.2.1

/-- C6: for every file packed by `oneFile`, the first 4 bytes of its head
    block read back the tag value 1 (the tag word is stored before the
    content loop runs, as the definition of `oneFile` shows), and once the
    source reports end-of-input the 4-byte length field at offset 4 of the
    head block reads back exactly the total number of content bytes
    consumed from the source. -/
theorem C6_file_header (N : Nat) (content : List Nat) (s : FS) (x : Nat)
    (bs : List Nat) (s' : FS) (hinv : AllocInv N s)
    (hlen : content.length < 4294967296)
    (h : oneFile content s = some (x, bs, s')) :
    readWord s'.mem (toPtr x 0) = 1 ∧ readWord s'.mem (toPtr x 4) = content.length := by
  have oo := oneFile_spec N content s x bs s' h hinv
  exact ⟨oo.tag, by rw [oo.header, Nat.mod_eq_of_lt hlen]⟩

/-- C6 witness: the header theorem applied to a concrete `oneFile` run on a
    fresh 8-block image with 3 bytes of content. -/
theorem C6_file_header_witness :
    AllocInv 8 (initFS 8) ∧ ([9, 8, 7] : List Nat).length < 4294967296
    ∧ readWord w6img.mem (toPtr w6x 0) = 1 ∧ readWord w6img.mem (toPtr w6x 4) = 3 := by
  refine ⟨by decide, by norm_num, ?_⟩
  unfold w6img w6x w6run
  cases hrun : oneFile [9, 8, 7] (initFS 8) with
  | none =>
    have hsome : (oneFile [9, 8, 7] (initFS 8)).isSome = true := by decide
    rw [hrun] at hsome
    simp at hsome
  | some r =>
    obtain ⟨x0, bs0, s0⟩ := r
    have hc := C6_file_header 8 [9, 8, 7] (initFS 8) x0 bs0 s0 (by decide)
      (by norm_num) hrun
    refine ⟨?_, ?_⟩
    · simpa using hc.1
    · simpa using hc.2

/-- C8: the super block's `avail` field only ever decreases: in a
    successful run the sequence of values `avail` takes — the allocation
    returns (one per successful `getBlock`, starting from the initial
    `nBlocks - 1`) followed by the final `avail` — is strictly decreasing,
    and no operation of the program writes `avail` other than `getBlock`
    (as the definitions show), so no block is ever returned to the free
    list. -/
theorem C8_avail_monotonic (N : Nat) (files : List (String × List Nat)) (s : FS)
    (hds allocs : List Nat) (hN : N < 2 ^ 31)
    (h : mkfs N files = some (s, hds, allocs)) :
    allocs.head? = some (N - 1) ∧ List.Chain' (· > ·) (allocs ++ [s.avail]) := by
  have mo := mkfs_spec N files s hds allocs (by omega) h
  exact ⟨mo.allocs_head, mo.allocs_chain⟩

set_option maxRecDepth 100000 in
/-- C8 witness: the monotonicity theorem applied to the concrete run
    `mkfs 8 [("w8a", [1, 2]), ("w8b", 600 bytes)]`. -/
theorem C8_avail_monotonic_witness :
    (8 : Nat) < 2 ^ 31 ∧ w8allocs.head? = some (8 - 1)
    ∧ List.Chain' (· > ·) (w8allocs ++ [w8img.avail]) := by
  refine ⟨by norm_num, ?_⟩
  unfold w8allocs w8img w8run
  cases hrun : mkfs 8 [("w8a", [1, 2]), ("w8b", List.replicate 600 5)] with
  | none =>
    have hsome : (mkfs 8 [("w8a", [1, 2]),
        ("w8b", List.replicate 600 5)]).isSome = true := by decide
    rw [hrun] at hsome
    simp at hsome
  | some r =>
    obtain ⟨s0, hds0, as0⟩ := r
    have hc := C8_avail_monotonic 8 [("w8a", [1, 2]), ("w8b", List.replicate 600 5)]
      s0 hds0 as0 (by norm_num) hrun
    exact ⟨by simpa using hc.1, by simpa using hc.2⟩

/-- C9: in every successful run the root directory block is the very first
    block allocated after free-list initialization, so `super.root` equals
    `nBlocks - 1`, the highest-index block of the image. -/
theorem C9_root_is_last_block (N : Nat) (files : List (String × List Nat)) (s : FS)
    (hds allocs : List Nat) (hN : N < 2 ^ 31)
    (h : mkfs N files = some (s, hds, allocs)) :
    s.root = N - 1 ∧ s.nBlocks = N := by
  have mo := mkfs_spec N files s hds allocs (by omega) h
  exact ⟨mo.root_eq, mo.nb⟩

/-- C9 witness: the root-position theorem applied to the concrete run
    `mkfs 8 [("w9", [4, 5])]`. -/
theorem C9_root_is_last_block_witness :
    (8 : Nat) < 2 ^ 31
    ∧ (mkfs 8 [("w9", [4, 5])]).map (fun r => r.1.root) = some (8 - 1) := by
  refine ⟨by norm_num, ?_⟩
  cases hrun : mkfs 8 [("w9", [4, 5])] with
  | none =>
    have hsome : (mkfs 8 [("w9", [4, 5])]).isSome = true := by decide
    rw [hrun] at hsome
    simp at hsome
  | some r =>
    obtain ⟨s0, hds0, as0⟩ := r
    have hc := C9_root_is_last_block 8 [("w9", [4, 5])] s0 hds0 as0 (by norm_num) hrun
    simp [hc.1]

/-- C10: every file chain is strictly decreasing in block index — whenever
    the packer links a continuation block, the new block's index is
    strictly smaller — so the FAT chain reachable from each directory
    entry's start block is acyclic (no duplicates) and finite, terminating
    on a 0 link. -/
theorem C10_file_chains_decreasing (N : Nat) (files : List (String × List Nat))
    (s : FS) (hds allocs : List Nat) (hN : N < 2 ^ 31)
    (h : mkfs N files = some (s, hds, allocs)) :
    ∀ hd ∈ hds, (chainList s.fat N hd).head? = some hd
      ∧ List.Chain' (· > ·) (chainList s.fat N hd)
      ∧ (chainList s.fat N hd).Nodup
      ∧ (chainWalk s.fat N hd).2 = 0 := by
  have mo := mkfs_spec N files s hds allocs (by omega) h
  intro hd hmem
  obtain ⟨tl, hchain, hlink, hmemf⟩ := mo.chains hd hmem
  have hpos : ∀ b ∈ hd :: tl, 0 < b := fun b hb => (hmemf b hb).1
  have hhdN : hd < N := (hmemf hd (by simp)).2.1
  have hlen : (hd :: tl).length ≤ N := by
    have := chain'_gt_length tl hd hchain
    simp only [List.length_cons]
    omega
  have hcw : chainWalk s.fat N hd = (hd :: tl, 0) :=
    chainWalk_of_linked s.fat tl hd N hlink hpos hlen
  have hcl : chainList s.fat N hd = hd :: tl := by
    unfold chainList
    rw [hcw]
  refine ⟨by rw [hcl]; rfl, by rw [hcl]; exact hchain,
    by rw [hcl]; exact chain'_gt_nodup _ hchain, by rw [hcw]⟩

set_option maxRecDepth 100000 in
/-- C10 witness: the chain theorem applied to the concrete run
    `mkfs 8 [("w10", 600 bytes)]`, whose single file spans two blocks. -/
theorem C10_file_chains_decreasing_witness :
    (8 : Nat) < 2 ^ 31
    ∧ (chainList w10img.fat 8 (w10heads.getD 0 0)).head? = some (w10heads.getD 0 0)
    ∧ List.Chain' (· > ·) (chainList w10img.fat 8 (w10heads.getD 0 0))
    ∧ (chainList w10img.fat 8 (w10heads.getD 0 0)).Nodup
    ∧ (chainWalk w10img.fat 8 (w10heads.getD 0 0)).2 = 0 := by
  refine ⟨by norm_num, ?_⟩
  unfold w10img w10heads w10run
  cases hrun : mkfs 8 [("w10", List.replicate 600 9)] with
  | none =>
    have hsome : (mkfs 8 [("w10", List.replicate 600 9)]).isSome = true := by decide
    rw [hrun] at hsome
    simp at hsome
  | some r =>
    obtain ⟨s0, hds0, as0⟩ := r
    have hh : (mkfs 8 [("w10", List.replicate 600 9)]).map
        (fun r => r.2.1) = some [6] := by decide
    rw [hrun] at hh
    simp only [Option.map_some', Option.some.injEq] at hh
    subst hh
    have hc := C10_file_chains_decreasing 8 [("w10", List.replicate 600 9)] s0 [6] as0
      (by norm_num) hrun 6 (by simp)
    simpa using hc

set_option maxRecDepth 1000000 in
set_option maxHeartbeats 4000000 in
/-- C5: end-to-end scenario with `nBlocks = 16` and two input files of 10
    and 600 bytes of known fixed content: parsing the produced image
    (reading the directory entries and following each start block's FAT
    chain) recovers both files' exact names, exact lengths and exact byte
    content, and the super block's `root` field points to a block whose
    4-byte header tag is 2. -/
theorem C5_end_to_end :
    c5run.isSome = true
    ∧ readWord c5img.mem (toPtr c5img.root 0) = 2
    ∧ parseNameBytes c5img 0 = strBytes "fileA"
    ∧ parseNameBytes c5img 1 = strBytes "fileB"
    ∧ parseFileLen c5img (entryStart c5img 0) = 10
    ∧ parseFileLen c5img (entryStart c5img 1) = 600
    ∧ parseFileBytes c5img (entryStart c5img 0) = [10, 20, 30, 40, 50, 60, 70, 80, 90, 100]
    ∧ parseFileBytes c5img (entryStart c5img 1) = c5content2 := by
  decide
